import Mathlib

/-!
# Verification of the risk-control weekly report core

Shallow embedding of the analysis-and-aggregation pipeline of the
repository (the rich variant of the report generator: `formatPercent`,
`extractDate`, `analyzeRows`, the weekly rollup with noise filtering and
the report construction in the `report` memo).

Modelling conventions:
* a CSV row (a JS object mapping column names to strings) is an
  association list `List (String × String)`; a missing key corresponds to
  the JS `undefined`, read through `Option`;
* a JS `Map` (which preserves insertion order) is an association list;
  `Map.set` on a fresh key appends at the end;
* a JS `Set` of strings is a duplicate-free list in insertion order;
* JS numbers are modelled exactly: counts as `Nat`, rates and thresholds
  as `ℚ` (the decimal literal `0.005` denotes the exact rational 1/200);
* `Number.prototype.toFixed` is modelled on `ℚ` following its
  specification (round to nearest, ties away from zero on the magnitude).
-/

namespace RiskControl

abbrev CsvRow := List (String × String)

/-- `row[key]` on a parsed CSV row: `some` value or `none` (JS `undefined`). -/
def rowGet (row : CsvRow) (k : String) : Option String :=
  (row.find? (fun p => p.1 == k)).map Prod.snd

/-- The character class of the JS `\s` regex escape (and of `String.prototype.trim`). -/
def jsWhitespace (c : Char) : Bool :=
  c = ' ' || c = '\t' || c = '\n' || c = '\r' ||
  c = '\x0b' || c = '\x0c' || c = ' ' ||
  c = ' ' || (' ' ≤ c && c ≤ ' ') ||
  c = ' ' || c = ' ' || c = ' ' || c = ' ' ||
  c = '　' || c = '﻿'

/-- JS `String.prototype.trim`. -/
def jsTrim (s : String) : String :=
  String.mk (((s.toList.dropWhile jsWhitespace).reverse.dropWhile jsWhitespace).reverse)

/-- `row[key]?.trim()` collapsed through `undefined`: a missing column and an
all-whitespace value both yield `""`, exactly as every use site in the source
treats them (only `=== literal` comparisons and falsiness tests follow). -/
def getTrim (row : CsvRow) (k : String) : String :=
  jsTrim ((rowGet row k).getD "")

/-! ## Date extractor

JS source: `dateStr.match(/(\d{4})[\.\-\/年](\d{1,2})[\.\-\/月](\d{1,2})/)`,
first match wins, month/day zero-padded to width 2, joined with `-`. -/

def isSep1 (c : Char) : Bool := c = '.' || c = '-' || c = '/' || c = '年'

def isSep2 (c : Char) : Bool := c = '.' || c = '-' || c = '/' || c = '月'

/-- The trailing `(\d{1,2})` group: greedily two digits, else one. -/
def matchDay : List Char → Option (List Char)
  | d1 :: d2 :: _ =>
    if d1.isDigit && d2.isDigit then some [d1, d2]
    else if d1.isDigit then some [d1] else none
  | [d1] => if d1.isDigit then some [d1] else none
  | [] => none

/-- `(\d{1,2})[\.\-\/月](\d{1,2})`: the month group is greedy with
backtracking from two digits to one. -/
def matchMonthDay : List Char → Option (List Char × List Char)
  | m1 :: m2 :: s :: rest =>
    (if m1.isDigit && m2.isDigit && isSep2 s then
      (matchDay rest).map (fun day => ([m1, m2], day))
    else none).orElse
    (fun _ =>
      if m1.isDigit && isSep2 m2 then
        (matchDay (s :: rest)).map (fun day => ([m1], day))
      else none)
  | _ => none

/-- Attempt the whole pattern anchored at the head of the character list. -/
def matchYMD : List Char → Option (List Char × List Char × List Char)
  | y1 :: y2 :: y3 :: y4 :: s :: rest =>
    if y1.isDigit && y2.isDigit && y3.isDigit && y4.isDigit && isSep1 s then
      (matchMonthDay rest).map (fun md => ([y1, y2, y3, y4], md.1, md.2))
    else none
  | _ => none

/-- Scan left to right for the first position where the pattern matches. -/
def scanDate : List Char → Option (List Char × List Char × List Char)
  | [] => none
  | c :: rest => (matchYMD (c :: rest)).orElse (fun _ => scanDate rest)

/-- `padStart(2, '0')` on a one- or two-digit group. -/
def pad2 (l : List Char) : List Char := if l.length = 1 then '0' :: l else l

/-- `extractDate`: canonical `YYYY-MM-DD` key, or `none` when the string is
empty (JS falsy guard) or the pattern does not occur. -/
def extractDate (dateStr : String) : Option String :=
  if dateStr = "" then none
  else (scanDate dateStr.toList).map (fun ymd =>
    String.mk ymd.1 ++ "-" ++ String.mk (pad2 ymd.2.1) ++ "-" ++ String.mk (pad2 ymd.2.2))

/-! ## Constants -/

def STRATEGY_MAPPING : List (String × String) := [
  ("huiboxing_wenxin_model", "huiboxing文心大模型"),
  ("service_digital_human_check", "数字人物料机审"),
  ("service_sync_word", "业务线词表策略"),
  ("qr_code_detect", "二维码图片识别模型"),
  ("sensitive_img_model", "敏感图片模型"),
  ("img_ocr_strategy", "图片ocr策略"),
  ("service_variant_word_check", "习彭变体词表"),
  ("duxiaodian_review", "度小店审核"),
  ("service_short_text_check", "短文本机审"),
  ("sensitive_hardface", "敏感人脸模型"),
  ("service_word_3s_check", "3S敏感词策略")]

/-- The tag-merge table in the source has every entry commented out. -/
def TAG_MERGE_MAPPING : List (String × String) := []

def WEEKLY_KEY : String := "ALL_WEEKLY_REPORT"

def TAG_STOP_LIST : List String :=
  ["通过", "拒绝", "待审", "送审", "null", "无", "内容涉及", "请修改后重试"]

/-- `table[key] || key`: lookup with fallback to the key itself (a falsy,
i.e. empty, table value also falls back, as `||` does in JS). -/
def mapName (tbl : List (String × String)) (k : String) : String :=
  match (tbl.find? (fun p => p.1 == k)).map Prod.snd with
  | some v => if v = "" then k else v
  | none => k

/-! ## Helper functions: numeric formatting -/

/-- `padStart(w, '0')`. -/
def padZeros (s : String) (w : Nat) : String :=
  String.mk (List.replicate (w - s.length) '0') ++ s

/-- `Number.prototype.toFixed` on exact rationals: the rounded integer `n`
minimising `|n / 10^d - |x||` (ties to the larger `n`), rendered with the
sign of `x`, `d` digits after the point (no point at all for `d = 0`). -/
def toFixed (x : ℚ) (d : Nat) : String :=
  let sign := if x < 0 then "-" else ""
  let y := if x < 0 then -x else x
  let n : Nat := (⌊y * (10 : ℚ) ^ d + 1 / 2⌋).toNat
  if d = 0 then sign ++ toString n
  else sign ++ toString (n / 10 ^ d) ++ "." ++ padZeros (toString (n % 10 ^ d)) d

/-- `formatPercent` (identical in both source files). -/
def formatPercent (numerator denominator : ℚ) (decimals : Nat) : String :=
  if denominator = 0 then toFixed 0 decimals
  else toFixed (numerator / denominator * 100) decimals

/-- `formatDecimal`. -/
def formatDecimal (val : ℚ) (decimals : Nat) : String :=
  toFixed val decimals

/-! ## Row classification (the per-row part of `analyzeRows`) -/

def isMachineReject (row : CsvRow) : Bool :=
  getTrim row "同步机审状态" == "拒绝" || getTrim row "异步机审状态" == "拒绝"

def humanStatus (row : CsvRow) : String := getTrim row "人审状态"

/-- `!!humanStatus`. -/
def isHumanSent (row : CsvRow) : Bool := humanStatus row != ""

def isHumanViolation (row : CsvRow) : Bool := humanStatus row == "拒绝"

def isHumanPending (row : CsvRow) : Bool := humanStatus row == "待审"

/-- Synchronous hit-strategy column with fallback to the asynchronous one
(the fallback fires on a falsy, i.e. empty-after-trim, value). -/
def rawStrategyValue (row : CsvRow) : String :=
  let s := getTrim row "同步机审命中策略"
  if s = "" then getTrim row "异步机审命中策略" else s

/-- `rawStrategyValue.split('&&')`: split on each leftmost occurrence of the
two-character separator. -/
def splitAmpAmpAux (acc : List Char) : List Char → List String
  | '&' :: '&' :: rest => String.mk acc.reverse :: splitAmpAmpAux [] rest
  | c :: rest => splitAmpAmpAux (c :: acc) rest
  | [] => [String.mk acc.reverse]

def splitAmpAmp (s : String) : List String := splitAmpAmpAux [] s.toList

/-- The strategy tokens of one row: split on `&&`, trim, drop empties, map
through `STRATEGY_MAPPING`.  Duplicates are kept. -/
def rowStrategyTokens (row : CsvRow) : List String :=
  let raw := rawStrategyValue row
  if raw = "" then []
  else ((splitAmpAmp raw).map jsTrim).filterMap
    (fun cleanName => if cleanName = "" then none
      else some (mapName STRATEGY_MAPPING cleanName))

/-! ## Tag tokenizer: `rawTags.split(/&&|\$\$|\+|[,\s，]+/)` -/

/-- The `[,\s，]` character class. -/
def tagSepChar (c : Char) : Bool := c = ',' || c = '，' || jsWhitespace c

/-- Split on each leftmost match of the alternation `&&`, `$$`, `+`, or a
greedy run of `[,\s，]`; `acc` holds the reversed characters of the token
under construction.  The greedy `[,\s，]+` run is encoded structurally with
the `inRun` flag: the first class character of a run emits the pending token,
and the following class characters of the same run are consumed silently,
which is exactly the maximal-munch behaviour of the regex. -/
def splitTagsAux (acc : List Char) (inRun : Bool) : List Char → List String
  | '&' :: '&' :: rest => String.mk acc.reverse :: splitTagsAux [] false rest
  | '$' :: '$' :: rest => String.mk acc.reverse :: splitTagsAux [] false rest
  | '+' :: rest => String.mk acc.reverse :: splitTagsAux [] false rest
  | c :: rest =>
    if tagSepChar c then
      if inRun then splitTagsAux acc true rest
      else String.mk acc.reverse :: splitTagsAux [] true rest
    else splitTagsAux (c :: acc) false rest
  | [] => [String.mk acc.reverse]

def splitTags (s : String) : List String := splitTagsAux [] false s.toList

/-- JS `Set.prototype.add` viewed on an insertion-ordered list. -/
def addUnique (l : List String) (t : String) : List String :=
  if t ∈ l then l else l ++ [t]

/-- The deduplicated tag set of one row (in insertion order): tokenize, trim,
drop empties and stop-list words, map through `TAG_MERGE_MAPPING`, collect
into a set. -/
def rowUniqueTags (rawTags : String) : List String :=
  (splitTags rawTags).foldl (fun acc t =>
    let tag := jsTrim t
    if tag = "" || TAG_STOP_LIST.contains tag then acc
    else addUnique acc (mapName TAG_MERGE_MAPPING tag)) []

/-! ## Per-partition aggregator (`analyzeRows`) -/

structure StrategyStats where
  name : String
  hitCount : Nat
  humanReviewCount : Nat
  pendingCount : Nat
  violationCount : Nat
deriving Repr, DecidableEq

/-- One strategy hit: create the map entry with zeros if absent (appended at
the end, as `Map.set` on a fresh key), then increment `hitCount` always and
the other three fields when the row's flags say so. -/
def bumpStrategy (sent pending violation : Bool) (k : String) :
    List (String × StrategyStats) → List (String × StrategyStats)
  | [] => [(k, { name := k, hitCount := 1,
                 humanReviewCount := if sent then 1 else 0,
                 pendingCount := if pending then 1 else 0,
                 violationCount := if violation then 1 else 0 })]
  | (k', s) :: rest =>
    if k' = k then
      (k', { s with
              hitCount := s.hitCount + 1,
              humanReviewCount := s.humanReviewCount + (if sent then 1 else 0),
              pendingCount := s.pendingCount + (if pending then 1 else 0),
              violationCount := s.violationCount + (if violation then 1 else 0) }) :: rest
    else (k', s) :: bumpStrategy sent pending violation k rest

/-- `tagMap.set(tag, (tagMap.get(tag) || 0) + 1)`. -/
def bumpTag (t : String) : List (String × Nat) → List (String × Nat)
  | [] => [(t, 1)]
  | (t', c) :: rest => if t' = t then (t', c + 1) :: rest else (t', c) :: bumpTag t rest

/-- The mutable accumulators of the `rows.forEach` loop in `analyzeRows`. -/
structure AccState where
  machineRejectCount : Nat
  recallCount : Nat
  humanViolationCount : Nat
  strategyMap : List (String × StrategyStats)
  tagMap : List (String × Nat)
deriving Repr, DecidableEq

/-- `String(row['人审标签'] || '')`. -/
def rowTagField (row : CsvRow) : String := (rowGet row "人审标签").getD ""

/-- The body of the `rows.forEach` loop of `analyzeRows`. -/
def stepRow (st : AccState) (row : CsvRow) : AccState :=
  { machineRejectCount := st.machineRejectCount + (if isMachineReject row then 1 else 0),
    recallCount := st.recallCount + (if isHumanSent row then 1 else 0),
    humanViolationCount := st.humanViolationCount + (if isHumanViolation row then 1 else 0),
    strategyMap := (rowStrategyTokens row).foldl
      (fun m k => bumpStrategy (isHumanSent row) (isHumanPending row) (isHumanViolation row) k m)
      st.strategyMap,
    tagMap :=
      if isHumanViolation row then
        (rowUniqueTags (rowTagField row)).foldl (fun m t => bumpTag t m) st.tagMap
      else st.tagMap }

structure AnalyzeResult where
  totalRows : Nat
  machineRejectCount : Nat
  recallCount : Nat
  humanViolationCount : Nat
  blackSampleTotal : Nat
  strategyMap : List (String × StrategyStats)
  tagMap : List (String × Nat)
deriving Repr, DecidableEq

/-- `analyzeRows` (the rich variant): fold the per-row step over the rows and
close with `blackSampleTotal = machineRejectCount + humanViolationCount`. -/
def analyzeRows (rows : List CsvRow) : AnalyzeResult :=
  let fin := rows.foldl stepRow ⟨0, 0, 0, [], []⟩
  { totalRows := rows.length,
    machineRejectCount := fin.machineRejectCount,
    recallCount := fin.recallCount,
    humanViolationCount := fin.humanViolationCount,
    blackSampleTotal := fin.machineRejectCount + fin.humanViolationCount,
    strategyMap := fin.strategyMap,
    tagMap := fin.tagMap }

/-! ## Weekly rollup and report construction -/

structure BasicStats where
  totalRows : Nat
  machineRejectCount : Nat
  recallCount : Nat
  humanViolationCount : Nat
  blackSampleTotal : Nat
deriving Repr, DecidableEq

def basicOf (a : AnalyzeResult) : BasicStats :=
  ⟨a.totalRows, a.machineRejectCount, a.recallCount, a.humanViolationCount, a.blackSampleTotal⟩

/-- The rows whose extracted date (from the async review-entry timestamp
column) equals the given key. -/
def dayRows (rawData : List CsvRow) (d : String) : List CsvRow :=
  rawData.filter (fun r => extractDate ((rowGet r "异步机审入审时间").getD "") == some d)

/-- Stable ascending insertion for the default string sort of
`Array.prototype.sort` (ES2019 mandates a stable sort, so any stable
ascending sort denotes the same list). -/
def insertStrAsc (x : String) : List String → List String
  | [] => [x]
  | y :: rest => if x < y then x :: y :: rest else y :: insertStrAsc x rest

def sortStrAsc (l : List String) : List String :=
  l.foldl (fun acc x => insertStrAsc x acc) []

/-- `availableDates`: the set of extracted dates in row order, then sorted
ascending (string order, which is chronological for the canonical keys). -/
def computeAvailableDates (data : List CsvRow) : List String :=
  sortStrAsc (data.foldl (fun acc r =>
    match extractDate ((rowGet r "异步机审入审时间").getD "") with
    | some d => addUnique acc d
    | none => acc) [])

/-- The noise-filtering block: with more than one date and a maximum daily
volume above 100, keep only the dates whose count exceeds
`max(5, maxVolume * 0.005)`. -/
def noiseFilter (dates : List String) (dailyCounts : List Nat) : List String :=
  if 1 < dates.length then
    let maxVolume := dailyCounts.foldl max 0
    if 100 < maxVolume then
      let threshold : ℚ := max 5 ((maxVolume : ℚ) * 0.005)
      ((dates.zip dailyCounts).filter (fun p => threshold < (p.2 : ℚ))).map Prod.fst
    else dates
  else dates

/-- The retained dates of the weekly branch. -/
def weeklyRetainedDates (rawData : List CsvRow) : List String :=
  let dates := computeAvailableDates rawData
  noiseFilter dates (dates.map (fun d => (dayRows rawData d).length))

/-- Per-day recall rate as a percentage, `0` on an empty day. -/
def dayRecallRatePct (rawData : List CsvRow) (d : String) : ℚ :=
  let stats := analyzeRows (dayRows rawData d)
  if 0 < stats.totalRows then (stats.recallCount : ℚ) / (stats.totalRows : ℚ) * 100 else 0

/-- Per-day precision as a percentage, `0` on a day with no recalls. -/
def dayPrecisionPct (rawData : List CsvRow) (d : String) : ℚ :=
  let stats := analyzeRows (dayRows rawData d)
  if 0 < stats.recallCount then (stats.humanViolationCount : ℚ) / (stats.recallCount : ℚ) * 100 else 0

/-- Per-day risk level as a percentage, `0` on an empty day. -/
def dayRiskPct (rawData : List CsvRow) (d : String) : ℚ :=
  let stats := analyzeRows (dayRows rawData d)
  if 0 < stats.totalRows then (stats.blackSampleTotal : ℚ) / (stats.totalRows : ℚ) * 100 else 0

/-- Merge one entry of a day's strategy map into the weekly aggregate
(append a copy on a fresh key, field-wise add otherwise). -/
def mergeStrategyEntry : List (String × StrategyStats) → String × StrategyStats →
    List (String × StrategyStats)
  | [], e => [e]
  | (k', s) :: rest, (k, v) =>
    if k' = k then
      (k', { s with
              hitCount := s.hitCount + v.hitCount,
              humanReviewCount := s.humanReviewCount + v.humanReviewCount,
              pendingCount := s.pendingCount + v.pendingCount,
              violationCount := s.violationCount + v.violationCount }) :: rest
    else (k', s) :: mergeStrategyEntry rest (k, v)

/-- Merge one entry of a day's tag map into the weekly aggregate. -/
def mergeTagEntry : List (String × Nat) → String × Nat → List (String × Nat)
  | [], e => [e]
  | (t', c) :: rest, (t, c2) =>
    if t' = t then (t', c + c2) :: rest else (t', c) :: mergeTagEntry rest (t, c2)

/-- The accumulators of the `dates.forEach` loop of the weekly branch. -/
structure WeeklyAcc where
  dailyStatsMap : List (String × BasicStats)
  aggTotalRows : Nat
  aggMachineReject : Nat
  aggRecall : Nat
  aggHumanViolation : Nat
  aggBlackSample : Nat
  sumRecallRate : ℚ
  sumPrecision : ℚ
  sumRiskLevel : ℚ
  aggStrategyMap : List (String × StrategyStats)
  aggTagMap : List (String × Nat)
deriving Repr, DecidableEq

/-- The body of the `dates.forEach` loop of the weekly branch. -/
def stepDay (rawData : List CsvRow) (acc : WeeklyAcc) (d : String) : WeeklyAcc :=
  let stats := analyzeRows (dayRows rawData d)
  { dailyStatsMap := acc.dailyStatsMap ++ [(d, basicOf stats)],
    aggTotalRows := acc.aggTotalRows + stats.totalRows,
    aggMachineReject := acc.aggMachineReject + stats.machineRejectCount,
    aggRecall := acc.aggRecall + stats.recallCount,
    aggHumanViolation := acc.aggHumanViolation + stats.humanViolationCount,
    aggBlackSample := acc.aggBlackSample + stats.blackSampleTotal,
    sumRecallRate := acc.sumRecallRate + dayRecallRatePct rawData d,
    sumPrecision := acc.sumPrecision + dayPrecisionPct rawData d,
    sumRiskLevel := acc.sumRiskLevel + dayRiskPct rawData d,
    aggStrategyMap := stats.strategyMap.foldl mergeStrategyEntry acc.aggStrategyMap,
    aggTagMap := stats.tagMap.foldl mergeTagEntry acc.aggTagMap }

def weeklyAggAcc (rawData : List CsvRow) : WeeklyAcc :=
  (weeklyRetainedDates rawData).foldl (stepDay rawData) ⟨[], 0, 0, 0, 0, 0, 0, 0, 0, [], []⟩

/-- Stable descending insertion by `hitCount`: the new element passes every
earlier element of at least its count, so ties keep insertion order, exactly
as the stable `sort((a, b) => b.hitCount - a.hitCount)` does. -/
def insertStratDesc (x : StrategyStats) : List StrategyStats → List StrategyStats
  | [] => [x]
  | y :: rest => if y.hitCount < x.hitCount then x :: y :: rest else y :: insertStratDesc x rest

/-- `Array.from(map.values()).sort((a, b) => b.hitCount - a.hitCount)`. -/
def sortStrategies (l : List StrategyStats) : List StrategyStats :=
  l.foldl (fun acc x => insertStratDesc x acc) []

/-- Stable descending insertion by count, for `sort((a, b) => b.count - a.count)`. -/
def insertTagDesc (x : String × Nat) : List (String × Nat) → List (String × Nat)
  | [] => [x]
  | y :: rest => if y.2 < x.2 then x :: y :: rest else y :: insertTagDesc x rest

def sortTagsDesc (l : List (String × Nat)) : List (String × Nat) :=
  l.foldl (fun acc x => insertTagDesc x acc) []

/-- Sorted-descending tag entries truncated to the top 35 (both report
branches run this same expression). -/
def buildTagList (m : List (String × Nat)) : List (String × Nat) :=
  (sortTagsDesc m).take 35

/-- `tagList.reduce((acc, curr) => acc + curr.count, 0)`. -/
def sumTagCounts (l : List (String × Nat)) : Nat :=
  l.foldl (fun acc curr => acc + curr.2) 0

structure AvgStats where
  totalRows : String
  machineRejectCount : String
  recallCount : String
  humanViolationCount : String
  blackSampleTotal : String
  recallRate : String
  precision : String
  riskLevel : String
deriving Repr, DecidableEq

structure WeeklyReport where
  dateLabel : String
  dates : List String
  dailyStatsMap : List (String × BasicStats)
  totalStats : BasicStats
  avgStats : AvgStats
  strategyList : List StrategyStats
  tagList : List (String × Nat)
  totalTagCount : Nat
  aggTotalRows : Nat
  aggHumanViolationCount : Nat
  aggRecallCount : Nat
deriving Repr, DecidableEq

structure SingleReport where
  dateLabel : String
  singleStats : BasicStats
  strategyList : List StrategyStats
  tagList : List (String × Nat)
  totalTagCount : Nat
  aggTotalRows : Nat
  aggHumanViolationCount : Nat
  aggRecallCount : Nat
deriving Repr, DecidableEq

/-- The weekly (`selectedDate === WEEKLY_KEY`) branch of the `report` memo. -/
def weeklyReportData (rawData : List CsvRow) : WeeklyReport :=
  let dates := weeklyRetainedDates rawData
  let acc := weeklyAggAcc rawData
  let totalStats : BasicStats :=
    ⟨acc.aggTotalRows, acc.aggMachineReject, acc.aggRecall, acc.aggHumanViolation, acc.aggBlackSample⟩
  let dayCount : Nat := if dates.length = 0 then 1 else dates.length
  let avgStats : AvgStats :=
    { totalRows := formatDecimal ((acc.aggTotalRows : ℚ) / (dayCount : ℚ)) 2,
      machineRejectCount := formatDecimal ((acc.aggMachineReject : ℚ) / (dayCount : ℚ)) 3,
      recallCount := formatDecimal ((acc.aggRecall : ℚ) / (dayCount : ℚ)) 2,
      humanViolationCount := formatDecimal ((acc.aggHumanViolation : ℚ) / (dayCount : ℚ)) 2,
      blackSampleTotal := formatDecimal ((acc.aggBlackSample : ℚ) / (dayCount : ℚ)) 0,
      recallRate := formatDecimal (acc.sumRecallRate / (dayCount : ℚ)) 2 ++ "%",
      precision := formatDecimal (acc.sumPrecision / (dayCount : ℚ)) 2 ++ "%",
      riskLevel := formatDecimal (acc.sumRiskLevel / (dayCount : ℚ)) 2 ++ "%" }
  let tagList := buildTagList acc.aggTagMap
  { dateLabel := "整体周报",
    dates := dates,
    dailyStatsMap := acc.dailyStatsMap,
    totalStats := totalStats,
    avgStats := avgStats,
    strategyList := sortStrategies (acc.aggStrategyMap.map Prod.snd),
    tagList := tagList,
    totalTagCount := sumTagCounts tagList,
    aggTotalRows := acc.aggTotalRows,
    aggHumanViolationCount := acc.aggHumanViolation,
    aggRecallCount := acc.aggRecall }

/-- The single-day branch of the `report` memo. -/
def singleReportData (rawData : List CsvRow) (selectedDate : String) : SingleReport :=
  let stats := analyzeRows (dayRows rawData selectedDate)
  let tagList := buildTagList stats.tagMap
  { dateLabel := selectedDate,
    singleStats := basicOf stats,
    strategyList := sortStrategies (stats.strategyMap.map Prod.snd),
    tagList := tagList,
    totalTagCount := sumTagCounts tagList,
    aggTotalRows := stats.totalRows,
    aggHumanViolationCount := stats.humanViolationCount,
    aggRecallCount := stats.recallCount }

inductive ReportData where
  | weekly : WeeklyReport → ReportData
  | single : SingleReport → ReportData
deriving Repr, DecidableEq

/-- The `report` memo: `null` on zero rows, otherwise the weekly or the
single-day report structure. -/
def report (rawData : List CsvRow) (selectedDate : String) : Option ReportData :=
  if rawData.length = 0 then none
  else if selectedDate = WEEKLY_KEY then some (.weekly (weeklyReportData rawData))
  else some (.single (singleReportData rawData selectedDate))

/-! ## Observation functions on the aggregation maps

`lookupStrat`/`lookupTag` read an association list the way `Map.get` does;
the `…At` functions default an absent key to zero counts, which lets the
additivity statements be phrased key-wise. -/

def lookupStrat : List (String × StrategyStats) → String → Option StrategyStats
  | [], _ => none
  | (k', s) :: rest, k => if k' = k then some s else lookupStrat rest k

def lookupTag : List (String × Nat) → String → Option Nat
  | [], _ => none
  | (t', c) :: rest, t => if t' = t then some c else lookupTag rest t

def hitAt (m : List (String × StrategyStats)) (k : String) : Nat :=
  ((lookupStrat m k).map StrategyStats.hitCount).getD 0

def humanAt (m : List (String × StrategyStats)) (k : String) : Nat :=
  ((lookupStrat m k).map StrategyStats.humanReviewCount).getD 0

def pendAt (m : List (String × StrategyStats)) (k : String) : Nat :=
  ((lookupStrat m k).map StrategyStats.pendingCount).getD 0

def vioAt (m : List (String × StrategyStats)) (k : String) : Nat :=
  ((lookupStrat m k).map StrategyStats.violationCount).getD 0

def tagAt (m : List (String × Nat)) (t : String) : Nat :=
  (lookupTag m t).getD 0

def keysOf {α : Type} (m : List (String × α)) : List String := m.map Prod.fst

/-! ## Generic fold lemmas -/

theorem foldl_inv {α β : Type} {P : β → Prop} {f : β → α → β}
    (h : ∀ b a, P b → P (f b a)) : ∀ (l : List α) (b : β), P b → P (l.foldl f b) := by
  intro l
  induction l with
  | nil => intro b hb; simpa using hb
  | cons a l ih => intro b hb; exact ih _ (h b a hb)

/-! ## Effect of one strategy bump on the observations -/

theorem bumpStrategy_at (se pe vi : Bool) (k k' : String)
    (m : List (String × StrategyStats)) :
    hitAt (bumpStrategy se pe vi k m) k' = hitAt m k' + (if k' = k then 1 else 0) ∧
    humanAt (bumpStrategy se pe vi k m) k'
      = humanAt m k' + (if k' = k then (if se then 1 else 0) else 0) ∧
    pendAt (bumpStrategy se pe vi k m) k'
      = pendAt m k' + (if k' = k then (if pe then 1 else 0) else 0) ∧
    vioAt (bumpStrategy se pe vi k m) k'
      = vioAt m k' + (if k' = k then (if vi then 1 else 0) else 0) := by
  induction m with
  | nil =>
    by_cases h : k' = k
    · subst h; simp [bumpStrategy, hitAt, humanAt, pendAt, vioAt, lookupStrat]
    · simp [bumpStrategy, hitAt, humanAt, pendAt, vioAt, lookupStrat, h, Ne.symm h]
  | cons e rest ih =>
    obtain ⟨k0, s⟩ := e
    by_cases h0 : k0 = k
    · subst h0
      by_cases h : k' = k0
      · subst h; simp [bumpStrategy, hitAt, humanAt, pendAt, vioAt, lookupStrat]
      · simp [bumpStrategy, hitAt, humanAt, pendAt, vioAt, lookupStrat, h, Ne.symm h]
    · by_cases h : k0 = k'
      · subst h
        simp [bumpStrategy, hitAt, humanAt, pendAt, vioAt, lookupStrat, h0, Ne.symm h0]
      · simpa [bumpStrategy, hitAt, humanAt, pendAt, vioAt, lookupStrat, h0, h] using ih

theorem bumpTag_at (t t' : String) (m : List (String × Nat)) :
    tagAt (bumpTag t m) t' = tagAt m t' + (if t' = t then 1 else 0) := by
  induction m with
  | nil =>
    by_cases h : t' = t
    · subst h; simp [bumpTag, tagAt, lookupTag]
    · simp [bumpTag, tagAt, lookupTag, h, Ne.symm h]
  | cons e rest ih =>
    obtain ⟨t0, c⟩ := e
    by_cases h0 : t0 = t
    · subst h0
      by_cases h : t' = t0
      · subst h; simp [bumpTag, tagAt, lookupTag]
      · simp [bumpTag, tagAt, lookupTag, h, Ne.symm h]
    · by_cases h : t0 = t'
      · subst h
        simp [bumpTag, tagAt, lookupTag, h0, Ne.symm h0]
      · simpa [bumpTag, tagAt, lookupTag, h0, h] using ih

/-! ## Effect of one row's token fold, then of one whole row -/

theorem bumpStrategy_fold_at (se pe vi : Bool) (ts : List String)
    (m : List (String × StrategyStats)) (k : String) :
    hitAt (ts.foldl (fun acc k0 => bumpStrategy se pe vi k0 acc) m) k
      = hitAt m k + ts.count k ∧
    humanAt (ts.foldl (fun acc k0 => bumpStrategy se pe vi k0 acc) m) k
      = humanAt m k + (if se then ts.count k else 0) ∧
    pendAt (ts.foldl (fun acc k0 => bumpStrategy se pe vi k0 acc) m) k
      = pendAt m k + (if pe then ts.count k else 0) ∧
    vioAt (ts.foldl (fun acc k0 => bumpStrategy se pe vi k0 acc) m) k
      = vioAt m k + (if vi then ts.count k else 0) := by
  induction ts generalizing m with
  | nil => simp
  | cons t rest ih =>
    obtain ⟨b1, b2, b3, b4⟩ := bumpStrategy_at se pe vi t k m
    obtain ⟨h1, h2, h3, h4⟩ := ih (bumpStrategy se pe vi t m)
    refine ⟨?_, ?_, ?_, ?_⟩
    · rw [List.foldl_cons, h1, b1, List.count_cons]
      by_cases hkt : k = t
      · subst hkt; simp; all_goals omega
      · simp [hkt, Ne.symm hkt]; all_goals omega
    · rw [List.foldl_cons, h2, b2, List.count_cons]
      by_cases hkt : k = t
      · subst hkt; cases se <;> simp <;> omega
      · cases se <;> simp [hkt, Ne.symm hkt] <;> omega
    · rw [List.foldl_cons, h3, b3, List.count_cons]
      by_cases hkt : k = t
      · subst hkt; cases pe <;> simp <;> omega
      · cases pe <;> simp [hkt, Ne.symm hkt] <;> omega
    · rw [List.foldl_cons, h4, b4, List.count_cons]
      by_cases hkt : k = t
      · subst hkt; cases vi <;> simp <;> omega
      · cases vi <;> simp [hkt, Ne.symm hkt] <;> omega

theorem addUnique_nodup {l : List String} {t : String} (h : l.Nodup) :
    (addUnique l t).Nodup := by
  by_cases hm : t ∈ l <;> simp [addUnique, hm, h, List.nodup_append]

theorem rowUniqueTags_nodup (raw : String) : (rowUniqueTags raw).Nodup := by
  refine foldl_inv (P := List.Nodup) ?_ (splitTags raw) [] List.nodup_nil
  intro acc t hacc
  dsimp only []
  split
  · exact hacc
  · exact addUnique_nodup hacc

theorem bumpTag_fold_at (ts : List String) (h : ts.Nodup) (m : List (String × Nat))
    (t : String) :
    tagAt (ts.foldl (fun acc x => bumpTag x acc) m) t
      = tagAt m t + (if t ∈ ts then 1 else 0) := by
  induction ts generalizing m with
  | nil => simp
  | cons x rest ih =>
    obtain ⟨hxr, hrest⟩ := List.nodup_cons.mp h
    rw [List.foldl_cons, ih hrest (bumpTag x m), bumpTag_at x t m]
    by_cases ht : t = x
    · subst ht; simp [hxr]
    · simp [ht, List.mem_cons]

theorem stepRow_strat_at (st : AccState) (row : CsvRow) (k : String) :
    hitAt (stepRow st row).strategyMap k
      = hitAt st.strategyMap k + (rowStrategyTokens row).count k ∧
    humanAt (stepRow st row).strategyMap k
      = humanAt st.strategyMap k + (if isHumanSent row then (rowStrategyTokens row).count k else 0) ∧
    pendAt (stepRow st row).strategyMap k
      = pendAt st.strategyMap k + (if isHumanPending row then (rowStrategyTokens row).count k else 0) ∧
    vioAt (stepRow st row).strategyMap k
      = vioAt st.strategyMap k + (if isHumanViolation row then (rowStrategyTokens row).count k else 0) := by
  simpa [stepRow] using
    bumpStrategy_fold_at (isHumanSent row) (isHumanPending row) (isHumanViolation row)
      (rowStrategyTokens row) st.strategyMap k

/-- The tag contribution of one row to one tag: `1` exactly on a violation
row whose deduplicated tag set contains the tag. -/
def rowTagDelta (row : CsvRow) (t : String) : Nat :=
  if isHumanViolation row ∧ t ∈ rowUniqueTags (rowTagField row) then 1 else 0

theorem stepRow_tag_at (st : AccState) (row : CsvRow) (t : String) :
    tagAt (stepRow st row).tagMap t = tagAt st.tagMap t + rowTagDelta row t := by
  by_cases hv : isHumanViolation row
  · rw [show (stepRow st row).tagMap
        = (rowUniqueTags (rowTagField row)).foldl (fun m x => bumpTag x m) st.tagMap by
      simp [stepRow, hv]]
    rw [bumpTag_fold_at _ (rowUniqueTags_nodup _) st.tagMap t]
    by_cases hm : t ∈ rowUniqueTags (rowTagField row) <;> simp [rowTagDelta, hv, hm]
  · rw [show (stepRow st row).tagMap = st.tagMap by simp [stepRow, hv]]
    simp [rowTagDelta, hv]

/-! ## Characterization of `analyzeRows` -/

theorem foldl_stepRow_basic (rows : List CsvRow) (st : AccState) :
    (rows.foldl stepRow st).machineRejectCount
      = st.machineRejectCount + rows.countP isMachineReject ∧
    (rows.foldl stepRow st).recallCount = st.recallCount + rows.countP isHumanSent ∧
    (rows.foldl stepRow st).humanViolationCount
      = st.humanViolationCount + rows.countP isHumanViolation := by
  induction rows generalizing st with
  | nil => simp
  | cons r rest ih =>
    obtain ⟨h1, h2, h3⟩ := ih (stepRow st r)
    have e1 : (stepRow st r).machineRejectCount
        = st.machineRejectCount + (if isMachineReject r then 1 else 0) := rfl
    have e2 : (stepRow st r).recallCount
        = st.recallCount + (if isHumanSent r then 1 else 0) := rfl
    have e3 : (stepRow st r).humanViolationCount
        = st.humanViolationCount + (if isHumanViolation r then 1 else 0) := rfl
    refine ⟨?_, ?_, ?_⟩ <;> rw [List.foldl_cons] <;>
      simp only [h1, h2, h3, e1, e2, e3, List.countP_cons] <;> split_ifs <;> omega

theorem foldl_stepRow_strat (rows : List CsvRow) (st : AccState) (k : String) :
    hitAt ((rows.foldl stepRow st).strategyMap) k
      = hitAt st.strategyMap k + (rows.map (fun r => (rowStrategyTokens r).count k)).sum ∧
    humanAt ((rows.foldl stepRow st).strategyMap) k
      = humanAt st.strategyMap k
        + (rows.map (fun r => if isHumanSent r then (rowStrategyTokens r).count k else 0)).sum ∧
    pendAt ((rows.foldl stepRow st).strategyMap) k
      = pendAt st.strategyMap k
        + (rows.map (fun r => if isHumanPending r then (rowStrategyTokens r).count k else 0)).sum ∧
    vioAt ((rows.foldl stepRow st).strategyMap) k
      = vioAt st.strategyMap k
        + (rows.map (fun r => if isHumanViolation r then (rowStrategyTokens r).count k else 0)).sum := by
  induction rows generalizing st with
  | nil => simp
  | cons r rest ih =>
    obtain ⟨h1, h2, h3, h4⟩ := ih (stepRow st r)
    obtain ⟨s1, s2, s3, s4⟩ := stepRow_strat_at st r k
    refine ⟨?_, ?_, ?_, ?_⟩ <;> simp [List.foldl_cons, h1, h2, h3, h4, s1, s2, s3, s4] <;> omega

theorem foldl_stepRow_tag (rows : List CsvRow) (st : AccState) (t : String) :
    tagAt ((rows.foldl stepRow st).tagMap) t
      = tagAt st.tagMap t + (rows.map (fun r => rowTagDelta r t)).sum := by
  induction rows generalizing st with
  | nil => simp
  | cons r rest ih =>
    rw [List.foldl_cons, ih (stepRow st r), stepRow_tag_at st r t]
    simp
    omega

theorem analyzeRows_basic (rows : List CsvRow) :
    (analyzeRows rows).totalRows = rows.length ∧
    (analyzeRows rows).machineRejectCount = rows.countP isMachineReject ∧
    (analyzeRows rows).recallCount = rows.countP isHumanSent ∧
    (analyzeRows rows).humanViolationCount = rows.countP isHumanViolation ∧
    (analyzeRows rows).blackSampleTotal
      = rows.countP isMachineReject + rows.countP isHumanViolation := by
  obtain ⟨h1, h2, h3⟩ := foldl_stepRow_basic rows ⟨0, 0, 0, [], []⟩
  simp only at h1 h2 h3
  refine ⟨rfl, ?_, ?_, ?_, ?_⟩ <;> simp only [analyzeRows] <;> omega

theorem analyzeRows_strat_at (rows : List CsvRow) (k : String) :
    hitAt (analyzeRows rows).strategyMap k
      = (rows.map (fun r => (rowStrategyTokens r).count k)).sum ∧
    humanAt (analyzeRows rows).strategyMap k
      = (rows.map (fun r => if isHumanSent r then (rowStrategyTokens r).count k else 0)).sum ∧
    pendAt (analyzeRows rows).strategyMap k
      = (rows.map (fun r => if isHumanPending r then (rowStrategyTokens r).count k else 0)).sum ∧
    vioAt (analyzeRows rows).strategyMap k
      = (rows.map (fun r => if isHumanViolation r then (rowStrategyTokens r).count k else 0)).sum := by
  obtain ⟨h1, h2, h3, h4⟩ := foldl_stepRow_strat rows ⟨0, 0, 0, [], []⟩ k
  exact ⟨by simpa [analyzeRows, hitAt, lookupStrat] using h1,
    by simpa [analyzeRows, humanAt, lookupStrat] using h2,
    by simpa [analyzeRows, pendAt, lookupStrat] using h3,
    by simpa [analyzeRows, vioAt, lookupStrat] using h4⟩

theorem analyzeRows_tag_at (rows : List CsvRow) (t : String) :
    tagAt (analyzeRows rows).tagMap t = (rows.map (fun r => rowTagDelta r t)).sum := by
  simpa [analyzeRows, tagAt, lookupTag] using foldl_stepRow_tag rows ⟨0, 0, 0, [], []⟩ t

/-! ## Key sets of the aggregation maps stay duplicate-free -/

theorem lookupStrat_eq_none {m : List (String × StrategyStats)} {k : String}
    (h : k ∉ keysOf m) : lookupStrat m k = none := by
  induction m with
  | nil => rfl
  | cons e rest ih =>
    simp only [keysOf, List.map_cons, List.mem_cons, not_or] at h
    simpa [lookupStrat, Ne.symm h.1] using ih (by simpa [keysOf] using h.2)

theorem lookupTag_eq_none {m : List (String × Nat)} {t : String}
    (h : t ∉ keysOf m) : lookupTag m t = none := by
  induction m with
  | nil => rfl
  | cons e rest ih =>
    simp only [keysOf, List.map_cons, List.mem_cons, not_or] at h
    simpa [lookupTag, Ne.symm h.1] using ih (by simpa [keysOf] using h.2)

theorem keysOf_bumpStrategy (se pe vi : Bool) (k : String)
    (m : List (String × StrategyStats)) :
    keysOf (bumpStrategy se pe vi k m)
      = if k ∈ keysOf m then keysOf m else keysOf m ++ [k] := by
  induction m with
  | nil => simp [bumpStrategy, keysOf]
  | cons e rest ih =>
    obtain ⟨k0, s⟩ := e
    by_cases h0 : k0 = k
    · subst h0; simp [bumpStrategy, keysOf]
    · rw [show bumpStrategy se pe vi k ((k0, s) :: rest)
            = (k0, s) :: bumpStrategy se pe vi k rest by simp [bumpStrategy, h0],
        show keysOf ((k0, s) :: bumpStrategy se pe vi k rest)
            = k0 :: keysOf (bumpStrategy se pe vi k rest) from rfl,
        show keysOf ((k0, s) :: rest) = k0 :: keysOf rest from rfl, ih]
      by_cases hm : k ∈ keysOf rest <;> simp [hm, Ne.symm h0]

theorem keysOf_bumpTag (t : String) (m : List (String × Nat)) :
    keysOf (bumpTag t m) = if t ∈ keysOf m then keysOf m else keysOf m ++ [t] := by
  induction m with
  | nil => simp [bumpTag, keysOf]
  | cons e rest ih =>
    obtain ⟨t0, c⟩ := e
    by_cases h0 : t0 = t
    · subst h0; simp [bumpTag, keysOf]
    · rw [show bumpTag t ((t0, c) :: rest) = (t0, c) :: bumpTag t rest by simp [bumpTag, h0],
        show keysOf ((t0, c) :: bumpTag t rest) = t0 :: keysOf (bumpTag t rest) from rfl,
        show keysOf ((t0, c) :: rest) = t0 :: keysOf rest from rfl, ih]
      by_cases hm : t ∈ keysOf rest <;> simp [hm, Ne.symm h0]

theorem nodup_keys_bumpStrategy (se pe vi : Bool) (k : String)
    {m : List (String × StrategyStats)} (h : (keysOf m).Nodup) :
    (keysOf (bumpStrategy se pe vi k m)).Nodup := by
  rw [keysOf_bumpStrategy]
  by_cases hm : k ∈ keysOf m <;> simp [hm, h, List.nodup_append]

theorem nodup_keys_bumpTag (t : String) {m : List (String × Nat)}
    (h : (keysOf m).Nodup) : (keysOf (bumpTag t m)).Nodup := by
  rw [keysOf_bumpTag]
  by_cases hm : t ∈ keysOf m <;> simp [hm, h, List.nodup_append]

theorem analyzeRows_nodup_keys (rows : List CsvRow) :
    (keysOf (analyzeRows rows).strategyMap).Nodup ∧
    (keysOf (analyzeRows rows).tagMap).Nodup := by
  have main : ∀ (st : AccState), (keysOf st.strategyMap).Nodup ∧ (keysOf st.tagMap).Nodup →
      ∀ r, (keysOf (stepRow st r).strategyMap).Nodup ∧ (keysOf (stepRow st r).tagMap).Nodup := by
    intro st hst r
    constructor
    · have : (stepRow st r).strategyMap = (rowStrategyTokens r).foldl
          (fun m k => bumpStrategy (isHumanSent r) (isHumanPending r) (isHumanViolation r) k m)
          st.strategyMap := rfl
      rw [this]
      exact foldl_inv (P := fun m => (keysOf m).Nodup)
        (fun m k hm => nodup_keys_bumpStrategy _ _ _ k hm) _ _ hst.1
    · by_cases hv : isHumanViolation r
      · have : (stepRow st r).tagMap = (rowUniqueTags (rowTagField r)).foldl
            (fun m t => bumpTag t m) st.tagMap := by simp [stepRow, hv]
        rw [this]
        exact foldl_inv (P := fun m => (keysOf m).Nodup)
          (fun m t hm => nodup_keys_bumpTag t hm) _ _ hst.2
      · have : (stepRow st r).tagMap = st.tagMap := by simp [stepRow, hv]
        rw [this]; exact hst.2
  have := foldl_inv
    (P := fun st : AccState => (keysOf st.strategyMap).Nodup ∧ (keysOf st.tagMap).Nodup)
    (fun st r hst => main st hst r) rows ⟨0, 0, 0, [], []⟩ (by simp [keysOf])
  exact ⟨this.1, this.2⟩

/-! ## The weekly additive merge of the per-day maps -/

theorem mergeStrategyEntry_at (m : List (String × StrategyStats))
    (e : String × StrategyStats) (k : String) :
    hitAt (mergeStrategyEntry m e) k = hitAt m k + (if k = e.1 then e.2.hitCount else 0) ∧
    humanAt (mergeStrategyEntry m e) k
      = humanAt m k + (if k = e.1 then e.2.humanReviewCount else 0) ∧
    pendAt (mergeStrategyEntry m e) k = pendAt m k + (if k = e.1 then e.2.pendingCount else 0) ∧
    vioAt (mergeStrategyEntry m e) k
      = vioAt m k + (if k = e.1 then e.2.violationCount else 0) := by
  obtain ⟨ke, v⟩ := e
  induction m with
  | nil =>
    by_cases h : k = ke
    · subst h; simp [mergeStrategyEntry, hitAt, humanAt, pendAt, vioAt, lookupStrat]
    · simp [mergeStrategyEntry, hitAt, humanAt, pendAt, vioAt, lookupStrat, h, Ne.symm h]
  | cons e0 rest ih =>
    obtain ⟨k0, s⟩ := e0
    by_cases h0 : k0 = ke
    · subst h0
      by_cases h : k = k0
      · subst h; simp [mergeStrategyEntry, hitAt, humanAt, pendAt, vioAt, lookupStrat]
      · simp [mergeStrategyEntry, hitAt, humanAt, pendAt, vioAt, lookupStrat, h, Ne.symm h]
    · by_cases h : k0 = k
      · subst h
        simp [mergeStrategyEntry, hitAt, humanAt, pendAt, vioAt, lookupStrat, h0]
      · simpa [mergeStrategyEntry, hitAt, humanAt, pendAt, vioAt, lookupStrat, h0, h] using ih

theorem mergeTagEntry_at (m : List (String × Nat)) (e : String × Nat) (t : String) :
    tagAt (mergeTagEntry m e) t = tagAt m t + (if t = e.1 then e.2 else 0) := by
  obtain ⟨te, c⟩ := e
  induction m with
  | nil =>
    by_cases h : t = te
    · subst h; simp [mergeTagEntry, tagAt, lookupTag]
    · simp [mergeTagEntry, tagAt, lookupTag, h, Ne.symm h]
  | cons e0 rest ih =>
    obtain ⟨t0, c0⟩ := e0
    by_cases h0 : t0 = te
    · subst h0
      by_cases h : t = t0
      · subst h; simp [mergeTagEntry, tagAt, lookupTag]
      · simp [mergeTagEntry, tagAt, lookupTag, h, Ne.symm h]
    · by_cases h : t0 = t
      · subst h
        simp [mergeTagEntry, tagAt, lookupTag, h0, Ne.symm h0]
      · simpa [mergeTagEntry, tagAt, lookupTag, h0, h] using ih

theorem mergeStrategy_fold_at (m' : List (String × StrategyStats))
    (h : (keysOf m').Nodup) (m : List (String × StrategyStats)) (k : String) :
    hitAt (m'.foldl mergeStrategyEntry m) k = hitAt m k + hitAt m' k ∧
    humanAt (m'.foldl mergeStrategyEntry m) k = humanAt m k + humanAt m' k ∧
    pendAt (m'.foldl mergeStrategyEntry m) k = pendAt m k + pendAt m' k ∧
    vioAt (m'.foldl mergeStrategyEntry m) k = vioAt m k + vioAt m' k := by
  induction m' generalizing m with
  | nil => simp [hitAt, humanAt, pendAt, vioAt, lookupStrat]
  | cons e rest ih =>
    obtain ⟨k0, v0⟩ := e
    have hnd := List.nodup_cons.mp
      ((show keysOf ((k0, v0) :: rest) = k0 :: keysOf rest from rfl) ▸ h)
    have hk0 : k0 ∉ keysOf rest := hnd.1
    have hrest : (keysOf rest).Nodup := hnd.2
    obtain ⟨i1, i2, i3, i4⟩ := ih hrest (mergeStrategyEntry m (k0, v0))
    obtain ⟨e1, e2, e3, e4⟩ := mergeStrategyEntry_at m (k0, v0) k
    rw [List.foldl_cons]
    by_cases hk : k0 = k
    · subst hk
      refine ⟨?_, ?_, ?_, ?_⟩
      · rw [i1, e1]; simp [hitAt, lookupStrat, lookupStrat_eq_none hk0]
      · rw [i2, e2]; simp [humanAt, lookupStrat, lookupStrat_eq_none hk0]
      · rw [i3, e3]; simp [pendAt, lookupStrat, lookupStrat_eq_none hk0]
      · rw [i4, e4]; simp [vioAt, lookupStrat, lookupStrat_eq_none hk0]
    · refine ⟨?_, ?_, ?_, ?_⟩
      · rw [i1, e1]; simp [hitAt, lookupStrat, hk, Ne.symm hk]
      · rw [i2, e2]; simp [humanAt, lookupStrat, hk, Ne.symm hk]
      · rw [i3, e3]; simp [pendAt, lookupStrat, hk, Ne.symm hk]
      · rw [i4, e4]; simp [vioAt, lookupStrat, hk, Ne.symm hk]

theorem mergeTag_fold_at (m' : List (String × Nat)) (h : (keysOf m').Nodup)
    (m : List (String × Nat)) (t : String) :
    tagAt (m'.foldl mergeTagEntry m) t = tagAt m t + tagAt m' t := by
  induction m' generalizing m with
  | nil => simp [tagAt, lookupTag]
  | cons e rest ih =>
    obtain ⟨t0, c0⟩ := e
    have hnd := List.nodup_cons.mp
      ((show keysOf ((t0, c0) :: rest) = t0 :: keysOf rest from rfl) ▸ h)
    have ht0 : t0 ∉ keysOf rest := hnd.1
    have hrest : (keysOf rest).Nodup := hnd.2
    rw [List.foldl_cons, ih hrest (mergeTagEntry m (t0, c0)), mergeTagEntry_at m (t0, c0) t]
    by_cases ht : t0 = t
    · subst ht
      simp [tagAt, lookupTag, lookupTag_eq_none ht0]
    · simp [tagAt, lookupTag, ht, Ne.symm ht]

/-! ## Accumulation over the retained dates -/

theorem foldl_stepDay_counts (rawData : List CsvRow) (dates : List String) (acc : WeeklyAcc) :
    (dates.foldl (stepDay rawData) acc).aggTotalRows
      = acc.aggTotalRows + (dates.map (fun d => (analyzeRows (dayRows rawData d)).totalRows)).sum ∧
    (dates.foldl (stepDay rawData) acc).aggMachineReject
      = acc.aggMachineReject
        + (dates.map (fun d => (analyzeRows (dayRows rawData d)).machineRejectCount)).sum ∧
    (dates.foldl (stepDay rawData) acc).aggRecall
      = acc.aggRecall + (dates.map (fun d => (analyzeRows (dayRows rawData d)).recallCount)).sum ∧
    (dates.foldl (stepDay rawData) acc).aggHumanViolation
      = acc.aggHumanViolation
        + (dates.map (fun d => (analyzeRows (dayRows rawData d)).humanViolationCount)).sum ∧
    (dates.foldl (stepDay rawData) acc).aggBlackSample
      = acc.aggBlackSample
        + (dates.map (fun d => (analyzeRows (dayRows rawData d)).blackSampleTotal)).sum ∧
    (dates.foldl (stepDay rawData) acc).sumRecallRate
      = acc.sumRecallRate + (dates.map (dayRecallRatePct rawData)).sum ∧
    (dates.foldl (stepDay rawData) acc).sumPrecision
      = acc.sumPrecision + (dates.map (dayPrecisionPct rawData)).sum ∧
    (dates.foldl (stepDay rawData) acc).sumRiskLevel
      = acc.sumRiskLevel + (dates.map (dayRiskPct rawData)).sum := by
  induction dates generalizing acc with
  | nil => simp
  | cons d rest ih =>
    obtain ⟨h1, h2, h3, h4, h5, h6, h7, h8⟩ := ih (stepDay rawData acc d)
    have e1 : (stepDay rawData acc d).aggTotalRows
        = acc.aggTotalRows + (analyzeRows (dayRows rawData d)).totalRows := rfl
    have e2 : (stepDay rawData acc d).aggMachineReject
        = acc.aggMachineReject + (analyzeRows (dayRows rawData d)).machineRejectCount := rfl
    have e3 : (stepDay rawData acc d).aggRecall
        = acc.aggRecall + (analyzeRows (dayRows rawData d)).recallCount := rfl
    have e4 : (stepDay rawData acc d).aggHumanViolation
        = acc.aggHumanViolation + (analyzeRows (dayRows rawData d)).humanViolationCount := rfl
    have e5 : (stepDay rawData acc d).aggBlackSample
        = acc.aggBlackSample + (analyzeRows (dayRows rawData d)).blackSampleTotal := rfl
    have e6 : (stepDay rawData acc d).sumRecallRate
        = acc.sumRecallRate + dayRecallRatePct rawData d := rfl
    have e7 : (stepDay rawData acc d).sumPrecision
        = acc.sumPrecision + dayPrecisionPct rawData d := rfl
    have e8 : (stepDay rawData acc d).sumRiskLevel
        = acc.sumRiskLevel + dayRiskPct rawData d := rfl
    refine ⟨?_, ?_, ?_, ?_, ?_, ?_, ?_, ?_⟩ <;> rw [List.foldl_cons] <;>
      simp only [h1, h2, h3, h4, h5, h6, h7, h8, e1, e2, e3, e4, e5, e6, e7, e8,
        List.map_cons, List.sum_cons] <;>
      ring

theorem foldl_stepDay_maps (rawData : List CsvRow) (dates : List String) (acc : WeeklyAcc)
    (k t : String) :
    hitAt (dates.foldl (stepDay rawData) acc).aggStrategyMap k
      = hitAt acc.aggStrategyMap k
        + (dates.map (fun d => hitAt (analyzeRows (dayRows rawData d)).strategyMap k)).sum ∧
    humanAt (dates.foldl (stepDay rawData) acc).aggStrategyMap k
      = humanAt acc.aggStrategyMap k
        + (dates.map (fun d => humanAt (analyzeRows (dayRows rawData d)).strategyMap k)).sum ∧
    pendAt (dates.foldl (stepDay rawData) acc).aggStrategyMap k
      = pendAt acc.aggStrategyMap k
        + (dates.map (fun d => pendAt (analyzeRows (dayRows rawData d)).strategyMap k)).sum ∧
    vioAt (dates.foldl (stepDay rawData) acc).aggStrategyMap k
      = vioAt acc.aggStrategyMap k
        + (dates.map (fun d => vioAt (analyzeRows (dayRows rawData d)).strategyMap k)).sum ∧
    tagAt (dates.foldl (stepDay rawData) acc).aggTagMap t
      = tagAt acc.aggTagMap t
        + (dates.map (fun d => tagAt (analyzeRows (dayRows rawData d)).tagMap t)).sum := by
  induction dates generalizing acc with
  | nil => simp
  | cons d rest ih =>
    obtain ⟨h1, h2, h3, h4, h5⟩ := ih (stepDay rawData acc d)
    obtain ⟨hnds, hndt⟩ := analyzeRows_nodup_keys (dayRows rawData d)
    obtain ⟨m1, m2, m3, m4⟩ :=
      mergeStrategy_fold_at (analyzeRows (dayRows rawData d)).strategyMap hnds
        acc.aggStrategyMap k
    have m5 := mergeTag_fold_at (analyzeRows (dayRows rawData d)).tagMap hndt acc.aggTagMap t
    have es : (stepDay rawData acc d).aggStrategyMap
        = (analyzeRows (dayRows rawData d)).strategyMap.foldl mergeStrategyEntry
            acc.aggStrategyMap := rfl
    have et : (stepDay rawData acc d).aggTagMap
        = (analyzeRows (dayRows rawData d)).tagMap.foldl mergeTagEntry acc.aggTagMap := rfl
    refine ⟨?_, ?_, ?_, ?_, ?_⟩ <;> rw [List.foldl_cons] <;>
      simp only [h1, h2, h3, h4, h5, es, et, m1, m2, m3, m4, m5,
        List.map_cons, List.sum_cons] <;>
      omega

/-! ## The stable sorts -/

theorem mem_insertTagDesc {x y : String × Nat} {l : List (String × Nat)} :
    y ∈ insertTagDesc x l ↔ y = x ∨ y ∈ l := by
  induction l with
  | nil => simp [insertTagDesc]
  | cons z rest ih =>
    by_cases h : z.2 < x.2 <;> simp [insertTagDesc, h, ih] <;> tauto

theorem insertTagDesc_pairwise {x : String × Nat} {l : List (String × Nat)}
    (h : List.Pairwise (fun a b : String × Nat => b.2 ≤ a.2) l) :
    List.Pairwise (fun a b : String × Nat => b.2 ≤ a.2) (insertTagDesc x l) := by
  induction l with
  | nil => simp [insertTagDesc]
  | cons z rest ih =>
    obtain ⟨hz, hrest⟩ := List.pairwise_cons.mp h
    by_cases hlt : z.2 < x.2
    · rw [show insertTagDesc x (z :: rest) = x :: z :: rest by
        cases z with | mk a b => simp [insertTagDesc, hlt]]
      refine List.pairwise_cons.mpr ⟨?_, h⟩
      intro b hb
      rcases List.mem_cons.mp hb with rfl | hbr
      · exact le_of_lt hlt
      · exact le_trans (hz b hbr) (le_of_lt hlt)
    · rw [show insertTagDesc x (z :: rest) = z :: insertTagDesc x rest by
        cases z with | mk a b => simp [insertTagDesc, hlt]]
      refine List.pairwise_cons.mpr ⟨?_, ih hrest⟩
      intro b hb
      rcases mem_insertTagDesc.mp hb with rfl | hbr
      · exact le_of_not_lt hlt
      · exact hz b hbr

theorem sortTagsDesc_pairwise (l : List (String × Nat)) :
    List.Pairwise (fun a b : String × Nat => b.2 ≤ a.2) (sortTagsDesc l) :=
  foldl_inv (P := List.Pairwise (fun a b : String × Nat => b.2 ≤ a.2))
    (fun acc x hacc => insertTagDesc_pairwise hacc) l [] List.Pairwise.nil

theorem length_insertTagDesc (x : String × Nat) (l : List (String × Nat)) :
    (insertTagDesc x l).length = l.length + 1 := by
  induction l with
  | nil => simp [insertTagDesc]
  | cons z rest ih =>
    by_cases h : z.2 < x.2 <;> simp [insertTagDesc, h, ih]

theorem sortTagsDesc_length (l : List (String × Nat)) :
    (sortTagsDesc l).length = l.length := by
  have main : ∀ (l acc : List (String × Nat)),
      (l.foldl (fun acc x => insertTagDesc x acc) acc).length = acc.length + l.length := by
    intro l
    induction l with
    | nil => simp
    | cons x rest ih =>
      intro acc
      rw [List.foldl_cons, ih (insertTagDesc x acc), length_insertTagDesc]
      simp only [List.length_cons]
      omega
  simpa [sortTagsDesc] using main l []

theorem sumTagCounts_eq_sum (l : List (String × Nat)) :
    sumTagCounts l = (l.map Prod.snd).sum := by
  have main : ∀ (l : List (String × Nat)) (n : Nat),
      l.foldl (fun acc curr => acc + curr.2) n = n + (l.map Prod.snd).sum := by
    intro l
    induction l with
    | nil => simp
    | cons x rest ih =>
      intro n
      rw [List.foldl_cons, ih (n + x.2)]
      simp
      omega
  simpa [sumTagCounts] using main l 0

/-! ## Small facts about the row signals -/

theorem pending_imp_sent {r : CsvRow} (h : isHumanPending r = true) : isHumanSent r = true := by
  have hs : humanStatus r = "待审" := by simpa [isHumanPending] using h
  simp [isHumanSent, hs]

theorem violation_imp_sent {r : CsvRow} (h : isHumanViolation r = true) :
    isHumanSent r = true := by
  have hs : humanStatus r = "拒绝" := by simpa [isHumanViolation] using h
  simp [isHumanSent, hs]

/-! ## Claim theorems -/

/-- C1: for every row sequence, `analyzeRows` returns
`blackSampleTotal = machineRejectCount + humanViolationCount`; and in weekly
mode the total column's `blackSampleTotal` is the sum over the retained days
of each day's `blackSampleTotal`. -/
theorem blackSample_decomposition :
    (∀ rows : List CsvRow,
      (analyzeRows rows).blackSampleTotal
        = (analyzeRows rows).machineRejectCount + (analyzeRows rows).humanViolationCount) ∧
    (∀ rawData : List CsvRow,
      (weeklyReportData rawData).totalStats.blackSampleTotal
        = ((weeklyReportData rawData).dates.map
            (fun d => (analyzeRows (dayRows rawData d)).blackSampleTotal)).sum) := by
  constructor
  · intro rows; rfl
  · intro rawData
    have e : (weeklyReportData rawData).totalStats.blackSampleTotal
        = (weeklyAggAcc rawData).aggBlackSample := rfl
    have ed : (weeklyReportData rawData).dates = weeklyRetainedDates rawData := rfl
    have h := (foldl_stepDay_counts rawData (weeklyRetainedDates rawData)
      ⟨[], 0, 0, 0, 0, 0, 0, 0, 0, [], []⟩).2.2.2.2.1
    simp only at h
    rw [e, ed]
    simpa [weeklyAggAcc] using h

/-- C2 counterexample: a single-day selection that matches zero rows still
yields a report structure (`report ≠ none`), contradicting the claim that
every no-retained-data situation returns the explicit no-report result. -/
theorem report_none_counterexample :
    dayRows [[("同步机审状态", "通过")]] "2024-01-01" = [] ∧
    report [[("同步机审状态", "通过")]] "2024-01-01" ≠ none := by
  constructor
  · rfl
  · intro h
    simp [report, WEEKLY_KEY] at h

/-- C2 amended: the core returns the no-report result exactly when the input
row list is empty; a single-day selection matching zero rows, or a weekly run
with zero extracted dates, instead returns a (zero-count) report structure,
still without raising. -/
theorem report_none_iff_empty (rawData : List CsvRow) (selectedDate : String) :
    report rawData selectedDate = none ↔ rawData = [] := by
  by_cases h0 : rawData.length = 0
  · simp [report, h0, List.length_eq_zero.mp h0]
  · have hne : rawData ≠ [] := by
      intro h
      exact h0 (by simp [h])
    simp only [report, if_neg h0]
    constructor
    · intro h
      split at h <;> simp_all
    · intro h
      exact absurd h hne

/-- C4: for a violation row, each canonical tag surviving the split, trim,
stop-list and merge-table steps increments that tag's count by exactly one,
however often it occurs in the raw field. -/
theorem tag_dedup_increment (rows : List CsvRow) (row : CsvRow)
    (h : isHumanViolation row = true) (t : String) :
    tagAt (analyzeRows (rows ++ [row])).tagMap t
      = tagAt (analyzeRows rows).tagMap t
        + (if t ∈ rowUniqueTags (rowTagField row) then 1 else 0) := by
  rw [analyzeRows_tag_at, analyzeRows_tag_at]
  simp [rowTagDelta, h]

def c4row : CsvRow := [("人审状态", "拒绝"), ("人审标签", "A&&A&&B")]

/-- C4 witness: applies the increment theorem to the raw tag field
`"A&&A&&B"`, which contributes exactly 1 to `A` and 1 to `B`. -/
theorem tag_dedup_increment_witness :
    (tagAt (analyzeRows ([] ++ [c4row])).tagMap "A"
      = tagAt (analyzeRows []).tagMap "A"
        + (if "A" ∈ rowUniqueTags (rowTagField c4row) then 1 else 0)) ∧
    tagAt (analyzeRows [c4row]).tagMap "A" = 1 ∧
    tagAt (analyzeRows [c4row]).tagMap "B" = 1 :=
  ⟨tag_dedup_increment [] c4row (by decide) "A", by decide, by decide⟩

/-- C7: in every strategy entry produced by `analyzeRows`,
`pendingCount ≤ humanReviewCount` and `violationCount ≤ humanReviewCount`. -/
theorem pending_violation_le_humanReview (rows : List CsvRow) (k : String)
    (s : StrategyStats) (h : lookupStrat (analyzeRows rows).strategyMap k = some s) :
    s.pendingCount ≤ s.humanReviewCount ∧ s.violationCount ≤ s.humanReviewCount := by
  obtain ⟨-, h2, h3, h4⟩ := analyzeRows_strat_at rows k
  have hh : humanAt (analyzeRows rows).strategyMap k = s.humanReviewCount := by
    simp [humanAt, h]
  have hp : pendAt (analyzeRows rows).strategyMap k = s.pendingCount := by
    simp [pendAt, h]
  have hv : vioAt (analyzeRows rows).strategyMap k = s.violationCount := by
    simp [vioAt, h]
  constructor
  · rw [← hp, ← hh, h3, h2]
    apply List.sum_le_sum
    intro r hr
    by_cases hpend : isHumanPending r
    · simp [hpend, pending_imp_sent hpend]
    · simp [hpend]
  · rw [← hv, ← hh, h4, h2]
    apply List.sum_le_sum
    intro r hr
    by_cases hvio : isHumanViolation r
    · simp [hvio, violation_imp_sent hvio]
    · simp [hvio]

def c7row : CsvRow := [("同步机审命中策略", "stratX"), ("人审状态", "待审")]

def c7stats : StrategyStats :=
  { name := "stratX", hitCount := 1, humanReviewCount := 1, pendingCount := 1,
    violationCount := 0 }

/-- C7 witness: the invariant instantiated on a concrete pending row. -/
theorem pending_violation_le_humanReview_witness :
    c7stats.pendingCount ≤ c7stats.humanReviewCount ∧
    c7stats.violationCount ≤ c7stats.humanReviewCount :=
  pending_violation_le_humanReview [c7row] "stratX" c7stats (by decide)

/-- C8: `formatPercent` with denominator 0 renders zero with exactly the
requested number of decimal digits, and with a nonzero denominator renders
`numerator / denominator * 100` at that precision. -/
theorem formatPercent_zero_denominator :
    (∀ (n : ℚ) (d : Nat),
      formatPercent n 0 d
        = (if d = 0 then "0" else "0." ++ String.mk (List.replicate d '0'))) ∧
    (∀ (n q : ℚ) (d : Nat), q ≠ 0 →
      formatPercent n q d = toFixed (n / q * 100) d) := by
  constructor
  · intro n d
    have h0 : formatPercent n 0 d = toFixed 0 d := by simp [formatPercent]
    rw [h0]
    have hlt : ¬((0 : ℚ) < 0) := lt_irrefl 0
    have hfloor : (⌊(0 : ℚ) * (10 : ℚ) ^ d + 1 / 2⌋).toNat = 0 := by
      norm_num
    by_cases hd : d = 0
    · subst hd
      simp only [toFixed, hfloor, if_neg hlt, if_pos rfl]
      rfl
    · obtain ⟨d', rfl⟩ : ∃ d', d = d' + 1 := ⟨d - 1, by omega⟩
      have ht0 : toString (0 : Nat) = "0" := rfl
      have hlen : ("0" : String).length = 1 := rfl
      simp only [toFixed, hfloor, if_neg hlt, Nat.zero_div, Nat.zero_mod, ht0,
        Nat.succ_ne_zero, if_false, padZeros, hlen]
      have h1 : d' + 1 - 1 = d' := by omega
      rw [h1]
      show String.mk (([] ++ ['0']) ++ ['.'] ++ (List.replicate d' '0' ++ ['0']))
        = String.mk (['0', '.'] ++ List.replicate (d' + 1) '0')
      congr 1
      simp [List.replicate_succ']
  · intro n q d hq
    simp [formatPercent, hq]

/-- C8 witness: zero denominator at 2 decimals, and a nonzero denominator. -/
theorem formatPercent_zero_denominator_witness :
    formatPercent 5 0 2 = "0.00" ∧
    formatPercent 1 4 2 = toFixed ((1 : ℚ) / 4 * 100) 2 := by
  constructor
  · have h := formatPercent_zero_denominator.1 5 2
    rw [h]
    decide
  · exact formatPercent_zero_denominator.2 1 4 2 (by norm_num)

/-- C9: in every strategy entry produced by `analyzeRows`,
`humanReviewCount ≤ hitCount`; each bump raises `hitCount` by exactly one and
`humanReviewCount` by at most one. -/
theorem humanReview_le_hitCount :
    (∀ (rows : List CsvRow) (k : String) (s : StrategyStats),
      lookupStrat (analyzeRows rows).strategyMap k = some s →
        s.humanReviewCount ≤ s.hitCount) ∧
    (∀ (se pe vi : Bool) (k : String) (m : List (String × StrategyStats)),
      hitAt (bumpStrategy se pe vi k m) k = hitAt m k + 1 ∧
      humanAt (bumpStrategy se pe vi k m) k ≤ humanAt m k + 1) := by
  constructor
  · intro rows k s h
    obtain ⟨h1, h2, -, -⟩ := analyzeRows_strat_at rows k
    have ht : hitAt (analyzeRows rows).strategyMap k = s.hitCount := by simp [hitAt, h]
    have hh : humanAt (analyzeRows rows).strategyMap k = s.humanReviewCount := by
      simp [humanAt, h]
    rw [← hh, ← ht, h1, h2]
    apply List.sum_le_sum
    intro r hr
    by_cases hs : isHumanSent r <;> simp [hs]
  · intro se pe vi k m
    obtain ⟨b1, b2, -, -⟩ := bumpStrategy_at se pe vi k k m
    refine ⟨by simpa using b1, ?_⟩
    rw [b2]
    have hle : (if k = k then (if se then 1 else 0) else 0) ≤ 1 := by
      simp only [if_pos rfl]
      by_cases hse : se <;> simp [hse]
    omega

def c9row : CsvRow := [("异步机审命中策略", "s9"), ("人审状态", "通过")]

def c9stats : StrategyStats :=
  { name := "s9", hitCount := 1, humanReviewCount := 1, pendingCount := 0,
    violationCount := 0 }

/-- C9 witness: the invariant instantiated on a concrete reviewed-and-passed
row. -/
theorem humanReview_le_hitCount_witness :
    c9stats.humanReviewCount ≤ c9stats.hitCount :=
  humanReview_le_hitCount.1 [c9row] "s9" c9stats (by decide)

/-- C3: with more than one date and a maximum daily volume above 100, the
noise filter drops exactly the dates whose volume is at most
`max(5, maxVolume * 0.005)`; otherwise no date is dropped; for daily volumes
`[1, 1, 150]` the threshold is `max(5, 0.75) = 5` and only the third date is
retained. -/
theorem noise_filter_spec :
    (∀ (dates : List String) (counts : List Nat),
      1 < dates.length → 100 < counts.foldl max 0 →
      noiseFilter dates counts
        = ((dates.zip counts).filter
            (fun p => ¬((p.2 : ℚ) ≤ max 5 (((counts.foldl max 0 : Nat) : ℚ) * 0.005)))).map
              Prod.fst) ∧
    (∀ (dates : List String) (counts : List Nat),
      counts.foldl max 0 ≤ 100 → noiseFilter dates counts = dates) ∧
    (∀ (dates : List String) (counts : List Nat),
      dates.length ≤ 1 → noiseFilter dates counts = dates) ∧
    noiseFilter ["2024-03-01", "2024-03-02", "2024-03-03"] [1, 1, 150] = ["2024-03-03"] ∧
    max (5 : ℚ) (((150 : Nat) : ℚ) * 0.005) = 5 := by
  refine ⟨?_, ?_, ?_, ?_, by norm_num⟩
  · intro dates counts h1 h2
    simp only [noiseFilter, if_pos h1, if_pos h2]
    apply congrArg (List.map Prod.fst)
    apply List.filter_congr
    intro p hp
    simp [not_le]
  · intro dates counts h
    by_cases h1 : 1 < dates.length
    · simp only [noiseFilter, if_pos h1, if_neg (not_lt.mpr h)]
    · simp only [noiseFilter, if_neg h1]
  · intro dates counts h
    have h1 : ¬1 < dates.length := by omega
    simp only [noiseFilter, if_neg h1]
  · have hmax : ([1, 1, 150] : List Nat).foldl max 0 = 150 := by decide
    have hthr : max (5 : ℚ) (((150 : Nat) : ℚ) * 0.005) = 5 := by norm_num
    have h1 : ¬((5 : ℚ) < ((1 : Nat) : ℚ)) := by norm_num
    have h150 : (5 : ℚ) < ((150 : Nat) : ℚ) := by norm_num
    simp only [noiseFilter, hmax]
    norm_num [hthr, List.filter_cons, h1, h150]

/-- C3 witness: the drop-exactly characterization applied to the daily
volumes `[1, 1, 150]`. -/
theorem noise_filter_spec_witness :
    noiseFilter ["2024-03-01", "2024-03-02", "2024-03-03"] [1, 1, 150]
      = (((["2024-03-01", "2024-03-02", "2024-03-03"].zip ([1, 1, 150] : List Nat)).filter
          (fun p => ¬((p.2 : ℚ)
            ≤ max 5 (((([1, 1, 150] : List Nat).foldl max 0 : Nat) : ℚ) * 0.005)))).map
            Prod.fst) :=
  noise_filter_spec.1 ["2024-03-01", "2024-03-02", "2024-03-03"] [1, 1, 150]
    (by decide) (by decide)

def fortyTags : List (String × Nat) :=
  (List.range 40).map (fun i => ("t" ++ toString i, 40 - i))

/-- C5 counterexample: on 40 distinct tags with counts `40, 39, ..., 1` the
post-truncation total is 805 (the sum of `6..40`), not 943 as the claim
computes. -/
theorem tagList_top35_counterexample :
    sumTagCounts (buildTagList fortyTags) = 805 ∧
    sumTagCounts (buildTagList fortyTags) ≠ 943 := by
  constructor <;> decide

/-- C5 amended: in both report modes the rendered tag list is the merged tag
entries stably sorted descending by count and truncated to the top 35, and
`totalTagCount` sums only the post-truncation list; on 40 distinct tags with
counts `40..1` the list keeps exactly the counts `40..6` and the total is
`sum(6..40) = 805` (not 943). -/
theorem tagList_top35_spec :
    (∀ rawData : List CsvRow,
      (weeklyReportData rawData).tagList = buildTagList (weeklyAggAcc rawData).aggTagMap ∧
      (weeklyReportData rawData).totalTagCount
        = ((weeklyReportData rawData).tagList.map Prod.snd).sum) ∧
    (∀ (rawData : List CsvRow) (selectedDate : String),
      (singleReportData rawData selectedDate).tagList
        = buildTagList (analyzeRows (dayRows rawData selectedDate)).tagMap ∧
      (singleReportData rawData selectedDate).totalTagCount
        = ((singleReportData rawData selectedDate).tagList.map Prod.snd).sum) ∧
    (∀ m : List (String × Nat),
      List.Pairwise (fun a b : String × Nat => b.2 ≤ a.2) (buildTagList m) ∧
      (buildTagList m).length = min 35 m.length) ∧
    (buildTagList fortyTags).map Prod.snd = (List.range 35).map (fun i => 40 - i) ∧
    sumTagCounts (buildTagList fortyTags) = 805 := by
  refine ⟨?_, ?_, ?_, by decide, by decide⟩
  · intro rawData
    exact ⟨rfl, sumTagCounts_eq_sum _⟩
  · intro rawData selectedDate
    exact ⟨rfl, sumTagCounts_eq_sum _⟩
  · intro m
    constructor
    · exact List.Pairwise.sublist (List.take_sublist 35 _) (sortTagsDesc_pairwise m)
    · simp [buildTagList, List.length_take, sortTagsDesc_length]

/-- C6: in weekly mode each averaged count is the summed per-day total
divided by `max(retained date count, 1)`, and each averaged rate is the
simple arithmetic mean of the per-day percentages (0 on a day with zero
denominator), not a ratio recomputed from summed totals. -/
theorem weekly_average_spec (rawData : List CsvRow) :
    (weeklyReportData rawData).avgStats.totalRows
      = formatDecimal (((((weeklyReportData rawData).dates.map
            (fun d => (analyzeRows (dayRows rawData d)).totalRows)).sum : Nat) : ℚ)
          / ((max (weeklyReportData rawData).dates.length 1 : Nat) : ℚ)) 2 ∧
    (weeklyReportData rawData).avgStats.machineRejectCount
      = formatDecimal (((((weeklyReportData rawData).dates.map
            (fun d => (analyzeRows (dayRows rawData d)).machineRejectCount)).sum : Nat) : ℚ)
          / ((max (weeklyReportData rawData).dates.length 1 : Nat) : ℚ)) 3 ∧
    (weeklyReportData rawData).avgStats.recallCount
      = formatDecimal (((((weeklyReportData rawData).dates.map
            (fun d => (analyzeRows (dayRows rawData d)).recallCount)).sum : Nat) : ℚ)
          / ((max (weeklyReportData rawData).dates.length 1 : Nat) : ℚ)) 2 ∧
    (weeklyReportData rawData).avgStats.humanViolationCount
      = formatDecimal (((((weeklyReportData rawData).dates.map
            (fun d => (analyzeRows (dayRows rawData d)).humanViolationCount)).sum : Nat) : ℚ)
          / ((max (weeklyReportData rawData).dates.length 1 : Nat) : ℚ)) 2 ∧
    (weeklyReportData rawData).avgStats.blackSampleTotal
      = formatDecimal (((((weeklyReportData rawData).dates.map
            (fun d => (analyzeRows (dayRows rawData d)).blackSampleTotal)).sum : Nat) : ℚ)
          / ((max (weeklyReportData rawData).dates.length 1 : Nat) : ℚ)) 0 ∧
    (weeklyReportData rawData).avgStats.recallRate
      = formatDecimal (((weeklyReportData rawData).dates.map (dayRecallRatePct rawData)).sum
          / ((max (weeklyReportData rawData).dates.length 1 : Nat) : ℚ)) 2 ++ "%" ∧
    (weeklyReportData rawData).avgStats.precision
      = formatDecimal (((weeklyReportData rawData).dates.map (dayPrecisionPct rawData)).sum
          / ((max (weeklyReportData rawData).dates.length 1 : Nat) : ℚ)) 2 ++ "%" ∧
    (weeklyReportData rawData).avgStats.riskLevel
      = formatDecimal (((weeklyReportData rawData).dates.map (dayRiskPct rawData)).sum
          / ((max (weeklyReportData rawData).dates.length 1 : Nat) : ℚ)) 2 ++ "%" := by
  obtain ⟨h1, h2, h3, h4, h5, h6, h7, h8⟩ :=
    foldl_stepDay_counts rawData (weeklyRetainedDates rawData)
      ⟨[], 0, 0, 0, 0, 0, 0, 0, 0, [], []⟩
  simp at h1 h2 h3 h4 h5 h6 h7 h8
  have hagg : weeklyAggAcc rawData
      = (weeklyRetainedDates rawData).foldl (stepDay rawData)
          ⟨[], 0, 0, 0, 0, 0, 0, 0, 0, [], []⟩ := rfl
  have g1 : (weeklyAggAcc rawData).aggTotalRows
      = ((weeklyRetainedDates rawData).map
          (fun d => (analyzeRows (dayRows rawData d)).totalRows)).sum := by rw [hagg, h1]
  have g2 : (weeklyAggAcc rawData).aggMachineReject
      = ((weeklyRetainedDates rawData).map
          (fun d => (analyzeRows (dayRows rawData d)).machineRejectCount)).sum := by
    rw [hagg, h2]
  have g3 : (weeklyAggAcc rawData).aggRecall
      = ((weeklyRetainedDates rawData).map
          (fun d => (analyzeRows (dayRows rawData d)).recallCount)).sum := by rw [hagg, h3]
  have g4 : (weeklyAggAcc rawData).aggHumanViolation
      = ((weeklyRetainedDates rawData).map
          (fun d => (analyzeRows (dayRows rawData d)).humanViolationCount)).sum := by
    rw [hagg, h4]
  have g5 : (weeklyAggAcc rawData).aggBlackSample
      = ((weeklyRetainedDates rawData).map
          (fun d => (analyzeRows (dayRows rawData d)).blackSampleTotal)).sum := by
    rw [hagg, h5]
  have g6 : (weeklyAggAcc rawData).sumRecallRate
      = ((weeklyRetainedDates rawData).map (dayRecallRatePct rawData)).sum := by rw [hagg, h6]
  have g7 : (weeklyAggAcc rawData).sumPrecision
      = ((weeklyRetainedDates rawData).map (dayPrecisionPct rawData)).sum := by rw [hagg, h7]
  have g8 : (weeklyAggAcc rawData).sumRiskLevel
      = ((weeklyRetainedDates rawData).map (dayRiskPct rawData)).sum := by rw [hagg, h8]
  have ed : (weeklyReportData rawData).dates = weeklyRetainedDates rawData := rfl
  have hdc : (if (weeklyRetainedDates rawData).length = 0 then 1
      else (weeklyRetainedDates rawData).length)
      = max (weeklyRetainedDates rawData).length 1 := by
    by_cases h : (weeklyRetainedDates rawData).length = 0 <;> simp [h] <;> omega
  have e1 : (weeklyReportData rawData).avgStats.totalRows
      = formatDecimal (((weeklyAggAcc rawData).aggTotalRows : ℚ)
          / ((if (weeklyRetainedDates rawData).length = 0 then 1
              else (weeklyRetainedDates rawData).length : Nat) : ℚ)) 2 := rfl
  have e2 : (weeklyReportData rawData).avgStats.machineRejectCount
      = formatDecimal (((weeklyAggAcc rawData).aggMachineReject : ℚ)
          / ((if (weeklyRetainedDates rawData).length = 0 then 1
              else (weeklyRetainedDates rawData).length : Nat) : ℚ)) 3 := rfl
  have e3 : (weeklyReportData rawData).avgStats.recallCount
      = formatDecimal (((weeklyAggAcc rawData).aggRecall : ℚ)
          / ((if (weeklyRetainedDates rawData).length = 0 then 1
              else (weeklyRetainedDates rawData).length : Nat) : ℚ)) 2 := rfl
  have e4 : (weeklyReportData rawData).avgStats.humanViolationCount
      = formatDecimal (((weeklyAggAcc rawData).aggHumanViolation : ℚ)
          / ((if (weeklyRetainedDates rawData).length = 0 then 1
              else (weeklyRetainedDates rawData).length : Nat) : ℚ)) 2 := rfl
  have e5 : (weeklyReportData rawData).avgStats.blackSampleTotal
      = formatDecimal (((weeklyAggAcc rawData).aggBlackSample : ℚ)
          / ((if (weeklyRetainedDates rawData).length = 0 then 1
              else (weeklyRetainedDates rawData).length : Nat) : ℚ)) 0 := rfl
  have e6 : (weeklyReportData rawData).avgStats.recallRate
      = formatDecimal ((weeklyAggAcc rawData).sumRecallRate
          / ((if (weeklyRetainedDates rawData).length = 0 then 1
              else (weeklyRetainedDates rawData).length : Nat) : ℚ)) 2 ++ "%" := rfl
  have e7 : (weeklyReportData rawData).avgStats.precision
      = formatDecimal ((weeklyAggAcc rawData).sumPrecision
          / ((if (weeklyRetainedDates rawData).length = 0 then 1
              else (weeklyRetainedDates rawData).length : Nat) : ℚ)) 2 ++ "%" := rfl
  have e8 : (weeklyReportData rawData).avgStats.riskLevel
      = formatDecimal ((weeklyAggAcc rawData).sumRiskLevel
          / ((if (weeklyRetainedDates rawData).length = 0 then 1
              else (weeklyRetainedDates rawData).length : Nat) : ℚ)) 2 ++ "%" := rfl
  refine ⟨?_, ?_, ?_, ?_, ?_, ?_, ?_, ?_⟩
  · rw [ed, e1, g1, hdc]
  · rw [ed, e2, g2, hdc]
  · rw [ed, e3, g3, hdc]
  · rw [ed, e4, g4, hdc]
  · rw [ed, e5, g5, hdc]
  · rw [ed, e6, g6, hdc]
  · rw [ed, e7, g7, hdc]
  · rw [ed, e8, g8, hdc]

/-- Summing a per-element contribution over a flattened list of lists equals
summing the per-list sums. -/
theorem sum_map_flatten {α : Type} (Ls : List (List α)) (f : α → Nat) :
    (Ls.flatten.map f).sum = (Ls.map (fun L => (L.map f).sum)).sum := by
  induction Ls with
  | nil => simp
  | cons L rest ih =>
    rw [List.flatten_cons, List.map_append, List.sum_append, ih, List.map_cons,
      List.sum_cons]

/-- C10: `analyzeRows` is additive over row-list concatenation for the basic
counts, the strategy fields and the tag counts; consequently the weekly
additive merge of the per-day strategy and tag maps agrees key-wise with a
single aggregation over all retained rows. -/
theorem analyzeRows_additivity :
    (∀ A B : List CsvRow,
      (analyzeRows (A ++ B)).totalRows
        = (analyzeRows A).totalRows + (analyzeRows B).totalRows ∧
      (analyzeRows (A ++ B)).machineRejectCount
        = (analyzeRows A).machineRejectCount + (analyzeRows B).machineRejectCount ∧
      (analyzeRows (A ++ B)).recallCount
        = (analyzeRows A).recallCount + (analyzeRows B).recallCount ∧
      (analyzeRows (A ++ B)).humanViolationCount
        = (analyzeRows A).humanViolationCount + (analyzeRows B).humanViolationCount ∧
      (analyzeRows (A ++ B)).blackSampleTotal
        = (analyzeRows A).blackSampleTotal + (analyzeRows B).blackSampleTotal) ∧
    (∀ (A B : List CsvRow) (k : String),
      hitAt (analyzeRows (A ++ B)).strategyMap k
        = hitAt (analyzeRows A).strategyMap k + hitAt (analyzeRows B).strategyMap k ∧
      humanAt (analyzeRows (A ++ B)).strategyMap k
        = humanAt (analyzeRows A).strategyMap k + humanAt (analyzeRows B).strategyMap k ∧
      pendAt (analyzeRows (A ++ B)).strategyMap k
        = pendAt (analyzeRows A).strategyMap k + pendAt (analyzeRows B).strategyMap k ∧
      vioAt (analyzeRows (A ++ B)).strategyMap k
        = vioAt (analyzeRows A).strategyMap k + vioAt (analyzeRows B).strategyMap k) ∧
    (∀ (A B : List CsvRow) (t : String),
      tagAt (analyzeRows (A ++ B)).tagMap t
        = tagAt (analyzeRows A).tagMap t + tagAt (analyzeRows B).tagMap t) ∧
    (∀ (rawData : List CsvRow) (k : String),
      hitAt (weeklyAggAcc rawData).aggStrategyMap k
        = hitAt (analyzeRows (((weeklyRetainedDates rawData).map
            (dayRows rawData)).flatten)).strategyMap k ∧
      humanAt (weeklyAggAcc rawData).aggStrategyMap k
        = humanAt (analyzeRows (((weeklyRetainedDates rawData).map
            (dayRows rawData)).flatten)).strategyMap k ∧
      pendAt (weeklyAggAcc rawData).aggStrategyMap k
        = pendAt (analyzeRows (((weeklyRetainedDates rawData).map
            (dayRows rawData)).flatten)).strategyMap k ∧
      vioAt (weeklyAggAcc rawData).aggStrategyMap k
        = vioAt (analyzeRows (((weeklyRetainedDates rawData).map
            (dayRows rawData)).flatten)).strategyMap k) ∧
    (∀ (rawData : List CsvRow) (t : String),
      tagAt (weeklyAggAcc rawData).aggTagMap t
        = tagAt (analyzeRows (((weeklyRetainedDates rawData).map
            (dayRows rawData)).flatten)).tagMap t) := by
  refine ⟨?_, ?_, ?_, ?_, ?_⟩
  · intro A B
    obtain ⟨a1, a2, a3, a4, a5⟩ := analyzeRows_basic (A ++ B)
    obtain ⟨b1, b2, b3, b4, b5⟩ := analyzeRows_basic A
    obtain ⟨c1, c2, c3, c4, c5⟩ := analyzeRows_basic B
    refine ⟨?_, ?_, ?_, ?_, ?_⟩ <;>
      simp only [a1, a2, a3, a4, a5, b1, b2, b3, b4, b5, c1, c2, c3, c4, c5,
        List.countP_append, List.length_append] <;> omega
  · intro A B k
    obtain ⟨a1, a2, a3, a4⟩ := analyzeRows_strat_at (A ++ B) k
    obtain ⟨b1, b2, b3, b4⟩ := analyzeRows_strat_at A k
    obtain ⟨c1, c2, c3, c4⟩ := analyzeRows_strat_at B k
    refine ⟨?_, ?_, ?_, ?_⟩ <;>
      simp only [a1, a2, a3, a4, b1, b2, b3, b4, c1, c2, c3, c4,
        List.map_append, List.sum_append]
  · intro A B t
    rw [analyzeRows_tag_at, analyzeRows_tag_at, analyzeRows_tag_at,
      List.map_append, List.sum_append]
  · intro rawData k
    obtain ⟨w1, w2, w3, w4, -⟩ :=
      foldl_stepDay_maps rawData (weeklyRetainedDates rawData)
        ⟨[], 0, 0, 0, 0, 0, 0, 0, 0, [], []⟩ k k
    rw [show hitAt ((⟨[], 0, 0, 0, 0, 0, 0, 0, 0, [], []⟩ : WeeklyAcc).aggStrategyMap) k = 0
        from rfl, Nat.zero_add] at w1
    rw [show humanAt ((⟨[], 0, 0, 0, 0, 0, 0, 0, 0, [], []⟩ : WeeklyAcc).aggStrategyMap) k = 0
        from rfl, Nat.zero_add] at w2
    rw [show pendAt ((⟨[], 0, 0, 0, 0, 0, 0, 0, 0, [], []⟩ : WeeklyAcc).aggStrategyMap) k = 0
        from rfl, Nat.zero_add] at w3
    rw [show vioAt ((⟨[], 0, 0, 0, 0, 0, 0, 0, 0, [], []⟩ : WeeklyAcc).aggStrategyMap) k = 0
        from rfl, Nat.zero_add] at w4
    obtain ⟨f1, f2, f3, f4⟩ :=
      analyzeRows_strat_at (((weeklyRetainedDates rawData).map (dayRows rawData)).flatten) k
    have hproj : (weeklyAggAcc rawData).aggStrategyMap
        = ((weeklyRetainedDates rawData).foldl (stepDay rawData)
            ⟨[], 0, 0, 0, 0, 0, 0, 0, 0, [], []⟩).aggStrategyMap := rfl
    refine ⟨?_, ?_, ?_, ?_⟩
    · rw [hproj, w1, f1, sum_map_flatten, List.map_map]
      refine congrArg List.sum (List.map_congr_left ?_)
      intro d hd
      simpa using (analyzeRows_strat_at (dayRows rawData d) k).1
    · rw [hproj, w2, f2, sum_map_flatten, List.map_map]
      refine congrArg List.sum (List.map_congr_left ?_)
      intro d hd
      simpa using (analyzeRows_strat_at (dayRows rawData d) k).2.1
    · rw [hproj, w3, f3, sum_map_flatten, List.map_map]
      refine congrArg List.sum (List.map_congr_left ?_)
      intro d hd
      simpa using (analyzeRows_strat_at (dayRows rawData d) k).2.2.1
    · rw [hproj, w4, f4, sum_map_flatten, List.map_map]
      refine congrArg List.sum (List.map_congr_left ?_)
      intro d hd
      simpa using (analyzeRows_strat_at (dayRows rawData d) k).2.2.2
  · intro rawData t
    obtain ⟨-, -, -, -, w5⟩ :=
      foldl_stepDay_maps rawData (weeklyRetainedDates rawData)
        ⟨[], 0, 0, 0, 0, 0, 0, 0, 0, [], []⟩ t t
    rw [show tagAt ((⟨[], 0, 0, 0, 0, 0, 0, 0, 0, [], []⟩ : WeeklyAcc).aggTagMap) t = 0
        from rfl, Nat.zero_add] at w5
    rw [show (weeklyAggAcc rawData).aggTagMap
        = ((weeklyRetainedDates rawData).foldl (stepDay rawData)
            ⟨[], 0, 0, 0, 0, 0, 0, 0, 0, [], []⟩).aggTagMap from rfl,
      w5,
      analyzeRows_tag_at (((weeklyRetainedDates rawData).map (dayRows rawData)).flatten) t,
      sum_map_flatten, List.map_map]
    refine congrArg List.sum (List.map_congr_left ?_)
    intro d hd
    simpa using analyzeRows_tag_at (dayRows rawData d) t

end RiskControl
